import Mathlib

/-
Verification of the buffering engine of gr-m2k's analog_in_source block
(lib/analog_in_source_impl.cc): a shallow embedding of the channel-skip
loop, the sample buffer state shared between the work function and the
background refill loop, the bounded wait loop, the shared context
registry, and the start/stop lifecycle, together with theorems about the
data-path, invariants, error handling and safety of those functions.
-/

namespace GrM2k

/-! ## Channel selection and the inactive-channel skip loop -/

/-- Embedding of the inner loop in work (line 219 of the source):
while the flag at the scan position is inactive, advance the position.
The scan walks the suffix of the flag vector that starts at the current
position; running off the end of the vector (the unchecked out-of-bounds
access of the C++ loop) is modelled as none. -/
def skipInactiveAux : List Bool → Nat → Option Nat
  | [], _ => none
  | b :: rest, i => if b then some i else skipInactiveAux rest (i + 1)

/-- The skip loop started at absolute index i of the flag vector. -/
def skipInactive (channels : List Bool) (i : Nat) : Option Nat :=
  skipInactiveAux (channels.drop i) i

/-- Embedding of the outer loop header of work (lines 217-221): the
mapping from output-stream index to physical channel index.  Given the
scan position i and the number of output regions still to serve, it
returns the list of physical channel indices used for the successive
output streams, or none when the skip loop runs out of bounds. -/
def channelMap (channels : List Bool) : Nat → Nat → Option (List Nat)
  | _, 0 => some []
  | i, k + 1 =>
    match skipInactive channels i with
    | none => none
    | some c => Option.map (fun l => c :: l) (channelMap channels (c + 1) k)

/-- Specification-side description of the active channels: the indices
of the true flags, in increasing order, starting the scan at absolute
index i. -/
def activeFrom : List Bool → Nat → List Nat
  | [], _ => []
  | b :: rest, i => if b then i :: activeFrom rest (i + 1) else activeFrom rest (i + 1)

/-! ## Configuration fixed at construction -/

/-- Construction-time configuration of one source instance, restricted
to what the work function reads.  The conversion of a raw device code to
volts and the narrowing cast of a raw code to a short are opaque
collaborator calls (out of scope for the buffering engine), so they are
abstract functions of the configuration. -/
structure Cfg (α β : Type) where
  convertRawToVolts : Nat → α → β
  castRawToShort : α → β
  stream_voltage_values : Bool
  channels : List Bool
  nstreams : Nat

/-- The per-sample output transform of work (lines 233-245): the volts
conversion when streaming voltage values, the raw narrowing cast
otherwise. -/
def transform (cfg : Cfg α β) (ch : Nat) (x : α) : β :=
  if cfg.stream_voltage_values then cfg.convertRawToVolts ch x else cfg.castRawToShort x

/-! ## The sample buffer state -/

/-- Result of one getSamplesRaw call of the refill loop: none models a
fetch that raised, some bufs a successful fetch returning one raw sample
sequence per physical channel. -/
abbrev Fetch (α : Type) := Option (List (List α))

/-- The item count the refill loop derives from a fetched buffer
(line 181): the length of the first channel sequence. -/
def blockLen (bufs : List (List α)) : Nat := (bufs.headD []).length

/-- The sample sequence of one physical channel of a fetched buffer. -/
def chanAt (bufs : List (List α)) (ch : Nat) : List α := bufs.getD ch []

/-- The mutable state shared by work and the refill loop: d_samples,
d_items_in_buffer, d_sample_index, d_empty_buffer, d_thread_stopped. -/
structure SourceState (α : Type) where
  samples : List (List α)
  items_in_buffer : Nat
  sample_index : Nat
  empty_buffer : Bool
  thread_stopped : Bool
deriving Repr, DecidableEq

/-- The state right after the constructor (d_samples two empty vectors)
and start() (items 0, empty true, stopped false). -/
def initState : SourceState α :=
  { samples := [[], []], items_in_buffer := 0, sample_index := 0,
    empty_buffer := true, thread_stopped := false }

/-- Installation of a fetched buffer by the refill loop
(lines 181-183): new samples, item count from the first channel, cursor
reset, empty flag cleared. -/
def install (bufs : List (List α)) (st : SourceState α) : SourceState α :=
  { st with
    samples := bufs
    items_in_buffer := blockLen bufs
    sample_index := 0
    empty_buffer := false }

/-- The background refill loop (lines 162-186), sequentialised: each
list element is the fetch the loop performs on one wakeup with an empty
buffer.  A failed fetch (none) is caught, sets the stopped flag and
exits the loop without retrying; the stopped flag at the loop head exits
immediately. -/
def refill_buffer (st : SourceState α) : List (Fetch α) → SourceState α
  | [] => st
  | f :: rest =>
    if st.thread_stopped then st
    else
      match f with
      | none => { st with thread_stopped := true }
      | some bufs => refill_buffer (install bufs st) rest

/-- Per-stream copy loop of work (lines 233-245): n samples of physical
channel ch, starting at read cursor si, each transformed. -/
def copyStream [Inhabited α] (cfg : Cfg α β) (bufs : List (List α))
    (ch si n : Nat) : List β :=
  (List.range n).map (fun k => transform cfg ch ((chanAt bufs ch).getD (k + si) default))

/-- Outcome of one work call.  eos is the end-of-stream return -1; out
carries the produced count, the per-stream outputs, the buffer_start
tag (value and offset) attached to every output region when the read
cursor was zero, the state left behind and the unconsumed fetches; hang
models a wait loop that never gets data; oob models the unchecked
out-of-bounds access of the channel skip loop. -/
inductive WorkResult (α β : Type) where
  | eos (st : SourceState α) (fetches : List (Fetch α))
  | out (n : Nat) (streams : List (List β)) (tag : Option (Nat × Nat))
      (st : SourceState α) (fetches : List (Fetch α))
  | hang
  | oob
deriving Repr

/-- The value work returns to the scheduler: -1 for end-of-stream, the
produced count otherwise; none when the call does not return (hang) or
has no defined behaviour (out-of-bounds). -/
def retOf : WorkResult α β → Option Int
  | .eos _ _ => some (-1)
  | .out n _ _ _ _ => some (n : Int)
  | .hang => none
  | .oob => none

/-- The copy phase of work (lines 214-250): produced count is the
minimum of the remaining items and the requested count; each output
region is filled from its active channel; a buffer_start tag carrying
d_items_in_buffer is attached at the current write offset exactly when
the read cursor is zero; the cursor advances and the remaining count
decreases by the produced count. -/
def copyPhase [Inhabited α] (cfg : Cfg α β) (st : SourceState α)
    (fetches : List (Fetch α)) (nout nwritten : Nat) : WorkResult α β :=
  match channelMap cfg.channels 0 cfg.nstreams with
  | none => .oob
  | some chans =>
    let n := min st.items_in_buffer nout
    let streams := chans.map (fun ch => copyStream cfg st.samples ch st.sample_index n)
    let tag := if st.sample_index = 0 then some (st.items_in_buffer, nwritten) else none
    .out n streams tag
      { st with
        items_in_buffer := st.items_in_buffer - n
        sample_index := st.sample_index + n }
      fetches

/-- One work call (lines 188-251) under the sequential scheduling in
which a wait on an empty buffer is answered by the refill loop
performing its next fetch: return -1 when stopped; mark the buffer
empty when drained; on an empty buffer hand the next fetch to the
refill loop (a failed fetch sets the stopped flag and work returns -1;
no next fetch means the device hangs); then copy. -/
def work [Inhabited α] (cfg : Cfg α β) (st : SourceState α)
    (fetches : List (Fetch α)) (nout nwritten : Nat) : WorkResult α β :=
  if st.thread_stopped then .eos st fetches
  else
    let st1 := if st.items_in_buffer = 0 then { st with empty_buffer := true } else st
    if st1.empty_buffer then
      match fetches with
      | [] => .hang
      | none :: rest => .eos { st1 with thread_stopped := true } rest
      | some bufs :: rest => copyPhase cfg (install bufs st1) rest nout nwritten
    else copyPhase cfg st1 fetches nout nwritten

/-! ## Runs of successive work calls -/

/-- Accumulated observations of a run of work calls: current buffer
state, unconsumed fetches, total items written per stream, the
per-stream concatenated outputs, and the buffer_start tags in emission
order. -/
structure RunState (α β : Type) where
  st : SourceState α
  fetches : List (Fetch α)
  nwritten : Nat
  outs : List (List β)
  tags : List (Nat × Nat)
deriving Repr

/-- A fresh run: state after start(), the full fetch stream ahead,
nothing produced. -/
def initRun (fetches : List (Fetch α)) (nstreams : Nat) : RunState α β :=
  { st := initState, fetches := fetches, nwritten := 0,
    outs := List.replicate nstreams [], tags := [] }

/-- One work call of a run; none when the call hangs, dies or signals
end-of-stream. -/
def runStep [Inhabited α] (cfg : Cfg α β) (rs : RunState α β) (nout : Nat) :
    Option (RunState α β) :=
  match work cfg rs.st rs.fetches nout rs.nwritten with
  | .out n streams tag st₂ rest =>
    some { st := st₂, fetches := rest, nwritten := rs.nwritten + n,
           outs := List.zipWith (fun a b => a ++ b) rs.outs streams,
           tags := rs.tags ++ tag.toList }
  | _ => none

/-- A sequence of work calls with the given requested counts. -/
def runCalls [Inhabited α] (cfg : Cfg α β) : List Nat → RunState α β → Option (RunState α β)
  | [], rs => some rs
  | r :: rest, rs =>
    match runStep cfg rs r with
    | none => none
    | some rs₂ => runCalls cfg rest rs₂

/-- Total item count of a list of fetches, counting a failed fetch as
zero items. -/
def sumBlocks : List (Fetch α) → Nat
  | [] => 0
  | f :: rest => blockLen (f.getD []) + sumBlocks rest

/-- Concatenation, in fetch order, of the raw sample sequences of one
physical channel across a list of fetches. -/
def chanConcat (ch : Nat) : List (Fetch α) → List α
  | [] => []
  | f :: rest => chanAt (f.getD []) ch ++ chanConcat ch rest

/-- The buffer_start tags a run is expected to emit for a list of
consumed fetches: one tag per fetched buffer, carrying the buffer's
item count, at the offset that counts all items of earlier buffers. -/
def tagSpec : List (Fetch α) → Nat → List (Nat × Nat)
  | [], _ => []
  | f :: rest, off => (blockLen (f.getD []), off) :: tagSpec rest (off + blockLen (f.getD []))

/-- Well-formedness of a fetch with respect to the channel indices a
run uses: the fetch succeeded, delivered at least one item, every
channel sequence has the common block length, and every used channel
index is in range. -/
def fetchOK (chans : List Nat) (f : Fetch α) : Bool :=
  match f with
  | none => false
  | some bufs =>
    decide (1 ≤ blockLen bufs) &&
    bufs.all (fun l => l.length == blockLen bufs) &&
    chans.all (fun ch => decide (ch < bufs.length))

/-! ## The bounded wait loop of work (lines 201-212) -/

/-- The timeout, in milliseconds, of one wait_for call of the work
function (line 203). -/
def waitTimeoutMs : Nat := 100

/-- What one bounded wait interval of the work function observes:
refilled when the refill loop cleared the empty flag and notified
within the interval; stopFlag when the stopped flag is set when the
wait returns; timedOut when the interval elapsed with the buffer still
empty and the instance still running. -/
inductive WaitEvent where
  | refilled
  | stopFlag
  | timedOut
deriving Repr, DecidableEq

/-- Outcome of the wait loop, carrying the number of timeout messages
published on the msg port: proceed means the loop exited to the copy
phase; eos means work returned -1 because the stopped flag was
observed; waiting means the supplied intervals are exhausted and the
call is still inside the loop, about to wait again. -/
inductive WaitRes where
  | proceed (msgs : Nat)
  | eos (msgs : Nat)
  | waiting (msgs : Nat)
deriving Repr, DecidableEq

/-- Embedding of the wait loop of work (lines 201-212) over a trace of
interval observations: while the buffer is empty, wait one bounded
interval; if the stopped flag is observed the call returns -1 before
publishing anything; an elapsed interval without data publishes exactly
one timeout message and loops again. -/
def waitLoop : Bool → List WaitEvent → Nat → WaitRes
  | false, _, msgs => .proceed msgs
  | true, [], msgs => .waiting msgs
  | true, e :: rest, msgs =>
    match e with
    | .refilled => .proceed msgs
    | .stopFlag => .eos msgs
    | .timedOut => waitLoop true rest (msgs + 1)

/-- Whether the work call has handed control back to the scheduler
after the modelled intervals. -/
def returnsControl : WaitRes → Bool
  | .proceed _ => true
  | .eos _ => true
  | .waiting _ => false

/-! ## The shared context registry (lines 138-160) -/

/-- Model of an open libm2k device context: an identity and the URI the
context reports through getUri. -/
structure M2kCtx where
  id : Nat
  uri : String
deriving Repr, DecidableEq

/-- The process-wide registry s_contexts, as a finite map from URI to
open context. -/
def Registry : Type := String → Option M2kCtx

/-- Lookup in the registry. -/
def regFind (m : Registry) (uri : String) : Option M2kCtx := m uri

/-- Map insertion with the semantics of std::map::insert used at
line 146: a no-op when the key is already present. -/
def regInsert (k : String) (v : M2kCtx) (m : Registry) : Registry :=
  match m k with
  | some _ => m
  | none => fun x => if x = k then some v else m x

/-- Map erasure (line 158). -/
def regErase (k : String) (m : Registry) : Registry :=
  fun x => if x = k then none else m x

/-- Embedding of get_context (lines 138-150) over an abstract m2kOpen
collaborator: return the registered context for the URI when present;
otherwise open, throw on failure, and register the new context under
the URI the context itself reports. -/
def get_context (m2kOpen : String → Option M2kCtx) (m : Registry) (uri : String) :
    Except String (M2kCtx × Registry) :=
  match m uri with
  | some ctx => .ok (ctx, m)
  | none =>
    match m2kOpen uri with
    | none => .error "Unable to create the context!"
    | some ctx => .ok (ctx, regInsert ctx.uri ctx m)

/-- Embedding of remove_contexts (lines 152-160): remove and close the
registered context for the URI; a no-op when none is registered.  The
second component lists the contexts that were closed. -/
def remove_contexts (m : Registry) (uri : String) : Registry × List M2kCtx :=
  match m uri with
  | some ctx => (regErase uri m, [ctx])
  | none => (m, [])

/-! ## The lifecycle controller (lines 253-276) -/

/-- State the stop function manipulates: the buffer flags, whether
d_refill_thread still refers to a joinable thread, and counters of the
joins actually performed and of the cancelBuffer and flushBuffer calls
issued to the device. -/
structure LifeState where
  empty_buffer : Bool
  thread_stopped : Bool
  threadJoinable : Bool
  joinCount : Nat
  cancelCount : Nat
  flushCount : Nat
deriving Repr, DecidableEq

/-- Joining d_refill_thread with the semantics of the underlying boost
thread wrapper: joining an object that no longer refers to a running
thread returns immediately and performs no join. -/
def joinRefill (s : LifeState) : LifeState :=
  if s.threadJoinable then
    { s with threadJoinable := false, joinCount := s.joinCount + 1 }
  else s

/-- Embedding of stop (lines 265-276): cancel any in-flight fetch, set
the empty and stopped flags, notify, join the refill thread, flush the
device-side buffer. -/
def stop (s : LifeState) : LifeState :=
  let s₁ := { s with cancelCount := s.cancelCount + 1 }
  let s₂ := { s₁ with empty_buffer := true, thread_stopped := true }
  let s₃ := joinRefill s₂
  { s₃ with flushCount := s₃.flushCount + 1 }

/-- Embedding of start (lines 253-263) on the lifecycle state: reset
the buffer flags and spawn the refill thread. -/
def start (s : LifeState) : LifeState :=
  { s with empty_buffer := true, thread_stopped := false, threadJoinable := true }

/-! ## Lemmas about the channel skip loop -/

theorem skipInactiveAux_eq_head (l : List Bool) (i : Nat) :
    skipInactiveAux l i = (activeFrom l i).head? := by
  induction l generalizing i with
  | nil => rfl
  | cons b rest ih =>
    by_cases hb : b
    · simp [skipInactiveAux, activeFrom, hb]
    · simp [skipInactiveAux, activeFrom, hb, ih]

theorem drop_succ_of_drop_cons {ch : List Bool} {i : Nat} {b : Bool} {rest : List Bool}
    (h : ch.drop i = b :: rest) : ch.drop (i + 1) = rest := by
  have h1 : List.drop 1 (List.drop i ch) = List.drop (i + 1) ch := List.drop_drop 1 i ch
  rw [← h1, h]
  rfl

theorem activeFrom_tail {ch : List Bool} :
    ∀ (l : List Bool) (i c : Nat) (t : List Nat), l = ch.drop i →
      activeFrom l i = c :: t → t = activeFrom (ch.drop (c + 1)) (c + 1) := by
  intro l
  induction l with
  | nil => intro i c t _ hact; simp [activeFrom] at hact
  | cons b rest ih =>
    intro i c t hdrop hact
    have hrest : ch.drop (i + 1) = rest := drop_succ_of_drop_cons hdrop.symm
    by_cases hb : b
    · simp [activeFrom, hb] at hact
      obtain ⟨hc, ht⟩ := hact
      subst hc
      rw [hrest]
      exact ht.symm
    · simp [activeFrom, hb] at hact
      exact ih (i + 1) c t hrest.symm hact

theorem length_activeFrom (l : List Bool) (i : Nat) :
    (activeFrom l i).length = l.count true := by
  induction l generalizing i with
  | nil => rfl
  | cons b rest ih =>
    by_cases hb : b
    · simp [activeFrom, hb, List.count_cons, ih]
    · simp [activeFrom, hb, List.count_cons, ih]

theorem channelMap_eq_take (ch : List Bool) :
    ∀ (k i : Nat), k ≤ (activeFrom (ch.drop i) i).length →
      channelMap ch i k = some ((activeFrom (ch.drop i) i).take k) := by
  intro k
  induction k with
  | zero => intro i _; simp [channelMap]
  | succ k ih =>
    intro i hk
    cases hA : activeFrom (ch.drop i) i with
    | nil => rw [hA] at hk; simp at hk
    | cons c t =>
      have hskip : skipInactive ch i = some c := by
        rw [skipInactive, skipInactiveAux_eq_head, hA]; rfl
      have ht : t = activeFrom (ch.drop (c + 1)) (c + 1) :=
        activeFrom_tail (ch.drop i) i c t rfl hA
      have hk2 : k ≤ (activeFrom (ch.drop (c + 1)) (c + 1)).length := by
        rw [hA] at hk
        simp only [List.length_cons] at hk
        rw [← ht]
        omega
      simp only [channelMap, hskip]
      rw [ih (c + 1) hk2, ← ht]
      rfl

theorem channelMap_take_zero (ch : List Bool) (n : Nat) (h : n ≤ ch.count true) :
    channelMap ch 0 n = some ((activeFrom ch 0).take n) := by
  have h0 : ch.drop 0 = ch := List.drop_zero ch
  have := channelMap_eq_take ch n 0 (by rw [h0, length_activeFrom]; exact h)
  rwa [h0] at this

/-! ## Claims about the output-stream-to-channel mapping -/

/-- C6: in every work call, output regions correspond one to one to
active channels in channel order: the skip loop maps the i-th output
stream to the i-th physical channel whose activation flag is true,
inactive channels being skipped deterministically, and the copy phase
fills each output region from exactly that channel. -/
theorem c6_outputs_follow_active_channels (channels : List Bool) (n : Nat)
    (h : n ≤ channels.count true) :
    channelMap channels 0 n = some ((activeFrom channels 0).take n) ∧
    ∀ {α β : Type} [Inhabited α] (cfg : Cfg α β), cfg.channels = channels →
      cfg.nstreams = n → ∀ (st : SourceState α) (fetches : List (Fetch α)) (nout nw : Nat),
      copyPhase cfg st fetches nout nw =
        .out (min st.items_in_buffer nout)
          (((activeFrom channels 0).take n).map
            (fun ch => copyStream cfg st.samples ch st.sample_index (min st.items_in_buffer nout)))
          (if st.sample_index = 0 then some (st.items_in_buffer, nw) else none)
          { st with
            items_in_buffer := st.items_in_buffer - min st.items_in_buffer nout
            sample_index := st.sample_index + min st.items_in_buffer nout }
          fetches := by
  refine ⟨channelMap_take_zero channels n h, ?_⟩
  intro α β _ cfg hch hn st fetches nout nw
  rw [copyPhase, hch, hn, channelMap_take_zero channels n h]

/-- Witness for C6 at a concrete flag vector with an inactive channel
in the middle. -/
theorem c6_witness :
    (2 ≤ [true, false, true].count true ∧
      channelMap [true, false, true] 0 2 = some ((activeFrom [true, false, true] 0).take 2)) ∧
    channelMap [true, false, true] 0 2 = some [0, 2] :=
  ⟨⟨by decide, (c6_outputs_follow_active_channels [true, false, true] 2 (by decide)).1⟩,
    by decide⟩

/-- C10: the inactive-channel skip loop advances without a bounds
check; when the number of active channel flags is at least the number
of output regions the scan never runs past the end of the flag vector,
and without that precondition the out-of-bounds branch of work is
reachable at a concrete input. -/
theorem c10_skip_loop_bounds :
    (∀ (channels : List Bool) (n : Nat), n ≤ channels.count true →
      ∃ l, channelMap channels 0 n = some l) ∧
    channelMap [true, false] 0 2 = none ∧
    work (Cfg.mk (fun _ x => x) (fun x => x) false [true, false] 2)
      { samples := [[(5 : Int)], [6]], items_in_buffer := 1, sample_index := 0,
        empty_buffer := false, thread_stopped := false }
      [] 1 0 = .oob := by
  refine ⟨?_, by decide, by rfl⟩
  intro channels n h
  exact ⟨(activeFrom channels 0).take n, channelMap_take_zero channels n h⟩

/-- Witness for C10 at a concrete flag vector with enough active
channels. -/
theorem c10_witness :
    2 ≤ [true, true].count true ∧ ∃ l, channelMap [true, true] 0 2 = some l :=
  ⟨by decide, c10_skip_loop_bounds.1 [true, true] 2 (by decide)⟩

/-! ## The buffer-accounting invariant -/

/-- The accounting invariant of the sample buffer: the read cursor plus
the remaining item count equals the total item count of the currently
installed buffer (zero on both sides when nothing is installed, as the
installed sequences are then empty). -/
def bufInv (st : SourceState α) : Prop :=
  st.sample_index + st.items_in_buffer = blockLen st.samples

/-- The buffer state a work call leaves behind, when the call returns. -/
def resultState : WorkResult α β → Option (SourceState α)
  | .eos st _ => some st
  | .out _ _ _ st _ => some st
  | .hang => none
  | .oob => none

theorem bufInv_install (bufs : List (List α)) (st : SourceState α) :
    bufInv (install bufs st) := by
  simp [bufInv, install]

theorem bufInv_copyPhase [Inhabited α] (cfg : Cfg α β) (st : SourceState α)
    (fetches : List (Fetch α)) (nout nw : Nat) (st₂ : SourceState α)
    (h : bufInv st) (hres : resultState (copyPhase cfg st fetches nout nw) = some st₂) :
    bufInv st₂ := by
  cases hcm : channelMap cfg.channels 0 cfg.nstreams with
  | none => simp [copyPhase, hcm, resultState] at hres
  | some chans =>
    simp only [copyPhase, hcm, resultState, Option.some_inj] at hres
    subst hres
    have hmin : min st.items_in_buffer nout ≤ st.items_in_buffer :=
      Nat.min_le_left _ _
    simp only [bufInv] at h ⊢
    omega

/-- C2: the read cursor plus the remaining item count always equals the
total item count of the currently installed buffer, both being zero
before any buffer is installed; the initial state satisfies the
invariant, every buffer installation by the refill task establishes it,
and every work call that returns preserves it. -/
theorem c2_cursor_plus_remaining_invariant :
    (∀ (α : Type), bufInv (initState : SourceState α)) ∧
    (∀ (α : Type) (bufs : List (List α)) (st : SourceState α), bufInv (install bufs st)) ∧
    (∀ (α β : Type) (inst : Inhabited α) (cfg : Cfg α β) (st : SourceState α)
      (fetches : List (Fetch α)) (nout nw : Nat) (st₂ : SourceState α), bufInv st →
      resultState (work cfg st fetches nout nw) = some st₂ → bufInv st₂) := by
  refine ⟨fun α => by simp [bufInv, initState, blockLen], fun α bufs st => bufInv_install bufs st, ?_⟩
  intro α β inst cfg st fetches nout nw st₂ h hres
  rw [work] at hres
  by_cases hstop : st.thread_stopped
  · simp only [hstop, if_true, resultState, Option.some_inj] at hres
    subst hres; exact h
  · simp only [hstop, if_false, Bool.false_eq_true] at hres
    by_cases hitems : st.items_in_buffer = 0
    · simp only [hitems, if_true, reduceIte] at hres
      cases fetches with
      | nil => simp [resultState] at hres
      | cons f rest =>
        cases f with
        | none =>
          simp only [resultState, Option.some_inj] at hres
          subst hres
          simp [bufInv] at h ⊢
          omega
        | some bufs =>
          exact bufInv_copyPhase cfg _ rest nout nw st₂ (bufInv_install bufs _) hres
    · simp only [hitems, reduceIte] at hres
      by_cases hemp : st.empty_buffer
      · simp only [hemp, if_true, reduceIte] at hres
        cases fetches with
        | nil => simp [resultState] at hres
        | cons f rest =>
          cases f with
          | none =>
            simp only [resultState, Option.some_inj] at hres
            subst hres
            simp [bufInv] at h ⊢
            omega
          | some bufs =>
            exact bufInv_copyPhase cfg _ rest nout nw st₂ (bufInv_install bufs _) hres
      · simp only [hemp, Bool.false_eq_true, reduceIte] at hres
        exact bufInv_copyPhase cfg st fetches nout nw st₂ h hres

/-- Concrete one-stream raw-mode configuration used by witnesses: the
identity conversion functions, one active channel. -/
def idCfg1 : Cfg Int Int := Cfg.mk (fun _ x => x) (fun x => x) false [true] 1

/-- Concrete mid-drain buffer state used by witnesses. -/
def midSt : SourceState Int :=
  { samples := [[1, 2], [3, 4]], items_in_buffer := 1, sample_index := 1,
    empty_buffer := false, thread_stopped := false }

/-- Witness for C2 at a concrete state and work call. -/
theorem c2_witness :
    bufInv midSt ∧
    ∀ st₂, resultState (work idCfg1 midSt [] 1 0) = some st₂ → bufInv st₂ :=
  ⟨by rfl, fun st₂ h =>
    c2_cursor_plus_remaining_invariant.2.2 Int Int ⟨0⟩ idCfg1 midSt [] 1 0 st₂ (by rfl) h⟩

/-! ## Boundary behaviour of a single work call -/

/-- C3: when the requested count is strictly smaller than the remaining
item count of the installed buffer, the work call produces exactly the
requested count, the remaining count decreases by exactly that amount,
and the next work call reads from the same buffer without consuming any
fetch. -/
theorem c3_partial_drain {α β : Type} [Inhabited α] (cfg : Cfg α β)
    (st : SourceState α) (fetches : List (Fetch α)) (nout nw : Nat) (chans : List Nat)
    (hcm : channelMap cfg.channels 0 cfg.nstreams = some chans)
    (hstop : st.thread_stopped = false) (hemp : st.empty_buffer = false)
    (hlt : nout < st.items_in_buffer) :
    ∃ streams tag,
      work cfg st fetches nout nw =
        .out nout streams tag
          { st with
            items_in_buffer := st.items_in_buffer - nout
            sample_index := st.sample_index + nout }
          fetches ∧
      retOf (work cfg st fetches nout nw) = some (nout : Int) ∧
      (∀ nout₂ nw₂, ∃ n₂ streams₂ tag₂ st₃,
        work cfg
          { st with
            items_in_buffer := st.items_in_buffer - nout
            sample_index := st.sample_index + nout }
          fetches nout₂ nw₂ = .out n₂ streams₂ tag₂ st₃ fetches ∧
        st₃.samples = st.samples) := by
  have hne : ¬ st.items_in_buffer = 0 := by omega
  have hmin : min st.items_in_buffer nout = nout := Nat.min_eq_right (Nat.le_of_lt hlt)
  have hwork : work cfg st fetches nout nw = copyPhase cfg st fetches nout nw := by
    rw [work]
    simp [hstop, hne, hemp]
  have hcopy : work cfg st fetches nout nw =
      .out nout (chans.map (fun ch => copyStream cfg st.samples ch st.sample_index nout))
        (if st.sample_index = 0 then some (st.items_in_buffer, nw) else none)
        { st with
          items_in_buffer := st.items_in_buffer - nout
          sample_index := st.sample_index + nout }
        fetches := by
    rw [hwork, copyPhase, hcm]
    simp only [hmin]
  refine ⟨_, _, hcopy, by rw [hcopy]; rfl, ?_⟩
  intro nout₂ nw₂
  have hne₂ : ¬ (st.items_in_buffer - nout = 0) := by omega
  have hwork₂ : work cfg
      { st with
        items_in_buffer := st.items_in_buffer - nout
        sample_index := st.sample_index + nout }
      fetches nout₂ nw₂ =
      copyPhase cfg
        { st with
          items_in_buffer := st.items_in_buffer - nout
          sample_index := st.sample_index + nout }
        fetches nout₂ nw₂ := by
    rw [work]
    simp [hstop, hne₂, hemp]
  rw [hwork₂, copyPhase, hcm]
  exact ⟨_, _, _, _, rfl, rfl⟩

/-- Witness for C3: a buffer with three remaining items, a request for
two. -/
theorem c3_witness :
    (channelMap idCfg1.channels 0 idCfg1.nstreams = some [0] ∧
      (2 : Nat) < 3) ∧
    ∃ streams tag,
      work idCfg1
        { samples := [[(10 : Int), 20, 30]], items_in_buffer := 3, sample_index := 0,
          empty_buffer := false, thread_stopped := false }
        [] 2 0 =
        .out 2 streams tag
          { samples := [[(10 : Int), 20, 30]], items_in_buffer := 1, sample_index := 2,
            empty_buffer := false, thread_stopped := false }
          [] ∧
      retOf (work idCfg1
        { samples := [[(10 : Int), 20, 30]], items_in_buffer := 3, sample_index := 0,
          empty_buffer := false, thread_stopped := false } [] 2 0) = some 2 ∧
      (∀ nout₂ nw₂, ∃ n₂ streams₂ tag₂ st₃,
        work idCfg1
          { samples := [[(10 : Int), 20, 30]], items_in_buffer := 1, sample_index := 2,
            empty_buffer := false, thread_stopped := false }
          [] nout₂ nw₂ = .out n₂ streams₂ tag₂ st₃ [] ∧
        st₃.samples = [[(10 : Int), 20, 30]]) :=
  ⟨⟨by decide, by decide⟩,
    c3_partial_drain idCfg1
      { samples := [[(10 : Int), 20, 30]], items_in_buffer := 3, sample_index := 0,
        empty_buffer := false, thread_stopped := false }
      [] 2 0 [0] (by decide) (by rfl) (by rfl) (by decide)⟩

/-! ## Error handling: fetch failure -/

/-- C4: a failed device fetch inside the refill loop is caught there,
never crosses the thread boundary, sets the stopped flag, is never
retried, and the next work call that observes the flag returns the -1
end-of-stream sentinel with no partial output and no fetch consumed. -/
theorem c4_fetch_failure_stops {α β : Type} [Inhabited α] (cfg : Cfg α β)
    (st : SourceState α) (rest : List (Fetch α)) (nout nw : Nat)
    (hstop : st.thread_stopped = false) (hitems : st.items_in_buffer = 0) :
    refill_buffer st (none :: rest) = { st with thread_stopped := true } ∧
    work cfg st (none :: rest) nout nw =
      .eos { st with empty_buffer := true, thread_stopped := true } rest ∧
    retOf (work cfg st (none :: rest) nout nw) = some (-1) ∧
    (∀ (st₂ : SourceState α) (fetches₂ : List (Fetch α)) (nout₂ nw₂ : Nat),
      st₂.thread_stopped = true →
      work cfg st₂ fetches₂ nout₂ nw₂ = .eos st₂ fetches₂ ∧
      retOf (work cfg st₂ fetches₂ nout₂ nw₂) = some (-1)) := by
  have hrefill : refill_buffer st (none :: rest) = { st with thread_stopped := true } := by
    rw [refill_buffer]
    simp [hstop]
  have hwork : work cfg st (none :: rest) nout nw =
      .eos { st with empty_buffer := true, thread_stopped := true } rest := by
    rw [work]
    simp [hstop, hitems]
  refine ⟨hrefill, hwork, by rw [hwork]; rfl, ?_⟩
  intro st₂ fetches₂ nout₂ nw₂ hstop₂
  have hw₂ : work cfg st₂ fetches₂ nout₂ nw₂ = .eos st₂ fetches₂ := by
    rw [work]
    simp [hstop₂]
  exact ⟨hw₂, by rw [hw₂]; rfl⟩

/-- Witness for C4 at a freshly started state whose first fetch
fails. -/
theorem c4_witness :
    ((initState : SourceState Int).thread_stopped = false ∧
      (initState : SourceState Int).items_in_buffer = 0) ∧
    (refill_buffer (initState : SourceState Int) [none] =
      { (initState : SourceState Int) with thread_stopped := true } ∧
    work idCfg1 initState [none] 4 0 =
      .eos { (initState : SourceState Int) with
        empty_buffer := true, thread_stopped := true } [] ∧
    retOf (work idCfg1 initState [none] 4 0) = some (-1) ∧
    (∀ (st₂ : SourceState Int) (fetches₂ : List (Fetch Int)) (nout₂ nw₂ : Nat),
      st₂.thread_stopped = true →
      work idCfg1 st₂ fetches₂ nout₂ nw₂ = .eos st₂ fetches₂ ∧
      retOf (work idCfg1 st₂ fetches₂ nout₂ nw₂) = some (-1))) :=
  ⟨⟨by rfl, by rfl⟩,
    c4_fetch_failure_stops idCfg1 initState [] 4 0 (by rfl) (by rfl)⟩

/-! ## Claims about the bounded wait loop -/

theorem waitLoop_replicate (k : Nat) (m : Nat) (rest : List WaitEvent) :
    waitLoop true (List.replicate k WaitEvent.timedOut ++ rest) m =
      waitLoop true rest (m + k) := by
  induction k generalizing m with
  | zero => simp
  | succ k ih =>
    rw [List.replicate_succ, List.cons_append, waitLoop, ih (m + 1)]
    have : m + 1 + k = m + (k + 1) := by omega
    rw [this]

/-- C7 counterexample: with the device fetch hung, one full 100 ms
timeout interval elapses and the work call has not returned control to
the scheduler; it has published one timeout message and is waiting
again, refuting the claim that the call returns within the fixed
timeout window when the fetch hangs. -/
theorem c7_counterexample :
    waitLoop true [WaitEvent.timedOut] 0 = WaitRes.waiting 1 ∧
    returnsControl (waitLoop true [WaitEvent.timedOut] 0) = false ∧
    returnsControl (waitLoop true [WaitEvent.timedOut, WaitEvent.timedOut] 0) = false := by
  decide

/-- C7 (amended): the wait interval is the fixed 100 ms timeout; while
the buffer stays empty the loop publishes exactly one timeout message
per elapsed interval; observing the stopped flag makes work return the
end-of-stream sentinel with no further message; when the buffer is
refilled within an interval the loop proceeds to the copy phase; and
when the fetch hangs the call does not return but keeps waiting, one
message per elapsed interval. -/
theorem c7_wait_loop_behaviour :
    waitTimeoutMs = 100 ∧
    (∀ k, waitLoop true (List.replicate k WaitEvent.timedOut ++ [WaitEvent.refilled]) 0 =
      WaitRes.proceed k) ∧
    (∀ k, waitLoop true (List.replicate k WaitEvent.timedOut ++ [WaitEvent.stopFlag]) 0 =
      WaitRes.eos k) ∧
    (∀ k, waitLoop true (List.replicate k WaitEvent.timedOut) 0 = WaitRes.waiting k) ∧
    (∀ events m, waitLoop false events m = WaitRes.proceed m) := by
  refine ⟨rfl, ?_, ?_, ?_, fun events m => by cases events <;> rfl⟩
  · intro k
    rw [waitLoop_replicate k 0 [WaitEvent.refilled]]
    simp [waitLoop]
  · intro k
    rw [waitLoop_replicate k 0 [WaitEvent.stopFlag]]
    simp [waitLoop]
  · intro k
    have := waitLoop_replicate k 0 []
    rw [List.append_nil] at this
    rw [this]
    simp [waitLoop]

/-! ## Claims about the shared context registry -/

/-- C8: acquire returns the already-registered handle for a URI when
one is open, leaving the registry unchanged; on a miss it opens a new
handle, failing with the open error when the underlying open fails (no
registration happens), and otherwise registers the handle so that a
later acquire with the same URI returns the identical handle; release
removes and closes the registered handle and is a no-op when none is
registered. -/
theorem c8_context_registry (f : String → Option M2kCtx) (m : Registry) (uri : String) :
    (∀ ctx, m uri = some ctx → get_context f m uri = .ok (ctx, m)) ∧
    (m uri = none → f uri = none →
      get_context f m uri = .error "Unable to create the context!") ∧
    (∀ ctx, m uri = none → f uri = some ctx → ctx.uri = uri →
      get_context f m uri = .ok (ctx, regInsert uri ctx m) ∧
      regInsert uri ctx m uri = some ctx ∧
      get_context f (regInsert uri ctx m) uri = .ok (ctx, regInsert uri ctx m)) ∧
    (∀ ctx, m uri = some ctx →
      (remove_contexts m uri).2 = [ctx] ∧ (remove_contexts m uri).1 uri = none) ∧
    (m uri = none → remove_contexts m uri = (m, [])) := by
  refine ⟨?_, ?_, ?_, ?_, ?_⟩
  · intro ctx h
    rw [get_context, h]
  · intro hm hf
    rw [get_context, hm, hf]
  · intro ctx hm hf huri
    have hreg : regInsert uri ctx m uri = some ctx := by
      rw [regInsert, hm]
      simp
    refine ⟨?_, hreg, ?_⟩
    · simp only [get_context, hm, hf]
      rw [huri]
    · simp only [get_context, hreg]
  · intro ctx h
    rw [remove_contexts, h]
    exact ⟨rfl, by simp [regErase]⟩
  · intro h
    rw [remove_contexts, h]

/-- Witness for C8: an empty registry, an open collaborator that
succeeds for one URI and reports that URI back. -/
theorem c8_witness :
    ((fun _ => none : Registry) "ip:192.168.2.1" = none ∧
      (fun u => if u = "ip:192.168.2.1" then some (M2kCtx.mk 1 u) else none) "ip:192.168.2.1" =
        some (M2kCtx.mk 1 "ip:192.168.2.1") ∧
      (M2kCtx.mk 1 "ip:192.168.2.1").uri = "ip:192.168.2.1") ∧
    (get_context (fun u => if u = "ip:192.168.2.1" then some (M2kCtx.mk 1 u) else none)
        (fun _ => none) "ip:192.168.2.1" =
      .ok (M2kCtx.mk 1 "ip:192.168.2.1",
        regInsert "ip:192.168.2.1" (M2kCtx.mk 1 "ip:192.168.2.1") (fun _ => none)) ∧
      regInsert "ip:192.168.2.1" (M2kCtx.mk 1 "ip:192.168.2.1") (fun _ => none)
        "ip:192.168.2.1" = some (M2kCtx.mk 1 "ip:192.168.2.1") ∧
      get_context (fun u => if u = "ip:192.168.2.1" then some (M2kCtx.mk 1 u) else none)
        (regInsert "ip:192.168.2.1" (M2kCtx.mk 1 "ip:192.168.2.1") (fun _ => none))
        "ip:192.168.2.1" =
      .ok (M2kCtx.mk 1 "ip:192.168.2.1",
        regInsert "ip:192.168.2.1" (M2kCtx.mk 1 "ip:192.168.2.1") (fun _ => none))) :=
  ⟨⟨rfl, by simp, rfl⟩,
    (c8_context_registry (fun u => if u = "ip:192.168.2.1" then some (M2kCtx.mk 1 u) else none)
      (fun _ => none) "ip:192.168.2.1").2.2.1 (M2kCtx.mk 1 "ip:192.168.2.1")
      rfl (by simp) rfl⟩

/-! ## Claims about the lifecycle controller -/

/-- C9: stop is idempotent and unconditionally safe: a second stop
changes none of the flags and performs no further join of the refill
thread; a stop without a preceding start (the thread object not
joinable) performs no join at all; and once the stopped flag is set the
refill loop exits immediately, so the join a stop performs cannot wait
on further fetch iterations. -/
theorem c9_stop_idempotent_safe (s : LifeState) :
    ((stop (stop s)).joinCount = (stop s).joinCount ∧
      (stop s).joinCount ≤ s.joinCount + 1) ∧
    ((stop s).threadJoinable = false ∧ (stop s).thread_stopped = true ∧
      (stop s).empty_buffer = true) ∧
    ((stop (stop s)).threadJoinable = (stop s).threadJoinable ∧
      (stop (stop s)).thread_stopped = (stop s).thread_stopped ∧
      (stop (stop s)).empty_buffer = (stop s).empty_buffer) ∧
    (s.threadJoinable = false → (stop s).joinCount = s.joinCount) ∧
    (∀ (α : Type) (st : SourceState α) (fetches : List (Fetch α)),
      st.thread_stopped = true → refill_buffer st fetches = st) := by
  refine ⟨?_, ?_, ?_, ?_, ?_⟩
  · by_cases h : s.threadJoinable <;> simp [stop, joinRefill, h]
  · by_cases h : s.threadJoinable <;> simp [stop, joinRefill, h]
  · by_cases h : s.threadJoinable <;> simp [stop, joinRefill, h]
  · intro h
    simp [stop, joinRefill, h]
  · intro α st fetches h
    cases fetches with
    | nil => rfl
    | cons f rest =>
      cases f <;> simp [refill_buffer, h]

/-- Witness for C9 at a lifecycle state on which start was never
called. -/
theorem c9_witness :
    (LifeState.mk false false false 0 0 0).threadJoinable = false ∧
    (stop (LifeState.mk false false false 0 0 0)).joinCount =
      (LifeState.mk false false false 0 0 0).joinCount ∧
    ((initState : SourceState Int).thread_stopped = true →
      refill_buffer (initState : SourceState Int) [] = initState) :=
  ⟨rfl,
    (c9_stop_idempotent_safe (LifeState.mk false false false 0 0 0)).2.2.2.1 rfl,
    fun h => (c9_stop_idempotent_safe (LifeState.mk false false false 0 0 0)).2.2.2.2
      Int initState [] h⟩

/-! ## List bookkeeping lemmas for runs of work calls -/

theorem getD_zipWith_append {β : Type} :
    ∀ (l₁ l₂ : List (List β)) (i : Nat), l₁.length = l₂.length →
      (List.zipWith (fun a b => a ++ b) l₁ l₂).getD i [] = l₁.getD i [] ++ l₂.getD i [] := by
  intro l₁
  induction l₁ with
  | nil =>
    intro l₂ i h
    cases l₂ with
    | nil => simp
    | cons b bs => simp at h
  | cons a as ih =>
    intro l₂ i h
    cases l₂ with
    | nil => simp at h
    | cons b bs =>
      cases i with
      | zero => simp
      | succ i =>
        simp only [List.zipWith_cons_cons, List.getD_cons_succ]
        exact ih bs i (by simpa using h)

theorem getD_map_fun {β : Type} :
    ∀ (chans : List Nat) (g : Nat → List β) (i : Nat), i < chans.length →
      (chans.map g).getD i [] = g (chans.getD i 0) := by
  intro chans
  induction chans with
  | nil => intro g i h; simp at h
  | cons c cs ih =>
    intro g i h
    cases i with
    | zero => simp
    | succ i =>
      simp only [List.map_cons, List.getD_cons_succ]
      exact ih g i (by simpa using h)

theorem take_eq_range_getD {γ : Type} (d : γ) :
    ∀ (n : Nat) (l : List γ), n ≤ l.length →
      l.take n = (List.range n).map (fun k => l.getD k d) := by
  intro n
  induction n with
  | zero => intro l _; simp
  | succ n ih =>
    intro l h
    have hn : n < l.length := by omega
    rw [List.take_succ, List.range_succ, List.map_append, ← ih l (by omega)]
    simp only [List.map_cons, List.map_nil]
    rw [List.getElem?_eq_getElem hn]
    rw [List.getD_eq_getElem l d hn]
    rfl

theorem getD_drop_add {γ : Type} (d : γ) (l : List γ) (si k : Nat) (h : si + k < l.length) :
    (l.drop si).getD k d = l.getD (si + k) d := by
  have hk : k < (l.drop si).length := by
    rw [List.length_drop]
    omega
  rw [List.getD_eq_getElem (l.drop si) d hk, List.getD_eq_getElem l d h]
  exact List.getElem_drop l

theorem drop_take_eq_range {γ : Type} [Inhabited γ] (B : List γ) (si n : Nat)
    (h : si + n ≤ B.length) :
    (B.drop si).take n = (List.range n).map (fun k => B.getD (k + si) default) := by
  have hlen : n ≤ (B.drop si).length := by
    rw [List.length_drop]
    omega
  rw [take_eq_range_getD default n (B.drop si) hlen]
  refine List.map_congr_left ?_
  intro k hk
  rw [List.mem_range] at hk
  rw [getD_drop_add default B si k (by omega)]
  have : si + k = k + si := by omega
  rw [this]

theorem take_concat_seg {γ : Type} [Inhabited γ] (P B R : List γ) (si n : Nat)
    (h : si + n ≤ B.length) :
    (P ++ B ++ R).take (P.length + si + n) =
      (P ++ B ++ R).take (P.length + si) ++
        (List.range n).map (fun k => B.getD (k + si) default) := by
  rw [List.append_assoc]
  have h1 : P.length + si + n = P.length + (si + n) := by omega
  rw [h1, List.take_append, List.take_append]
  rw [List.take_append_of_le_length (show si + n ≤ B.length from h),
    List.take_append_of_le_length (show si ≤ B.length by omega)]
  rw [List.take_add, List.append_assoc]
  rw [drop_take_eq_range B si n h]

theorem chanConcat_cons (ch : Nat) (f : Fetch α) (rest : List (Fetch α)) :
    chanConcat ch (f :: rest) = chanAt (f.getD []) ch ++ chanConcat ch rest := rfl

theorem chanConcat_append (ch : Nat) :
    ∀ (a b : List (Fetch α)), chanConcat ch (a ++ b) = chanConcat ch a ++ chanConcat ch b := by
  intro a
  induction a with
  | nil => intro b; rfl
  | cons f rest ih =>
    intro b
    rw [List.cons_append, chanConcat_cons, chanConcat_cons, ih, List.append_assoc]

theorem sumBlocks_append :
    ∀ (a b : List (Fetch α)), sumBlocks (a ++ b) = sumBlocks a + sumBlocks b := by
  intro a
  induction a with
  | nil => intro b; simp [sumBlocks]
  | cons f rest ih =>
    intro b
    rw [List.cons_append, sumBlocks, sumBlocks, ih]
    omega

theorem tagSpec_append :
    ∀ (a b : List (Fetch α)) (off : Nat),
      tagSpec (a ++ b) off = tagSpec a off ++ tagSpec b (off + sumBlocks a) := by
  intro a
  induction a with
  | nil => intro b off; simp [tagSpec, sumBlocks]
  | cons f rest ih =>
    intro b off
    rw [List.cons_append, tagSpec, tagSpec, ih]
    have : off + blockLen (f.getD []) + sumBlocks rest = off + sumBlocks (f :: rest) := by
      rw [sumBlocks]
      omega
    rw [this]
    simp

theorem fetchOK_some {chans : List Nat} {f : Fetch α} (h : fetchOK chans f = true) :
    ∃ bufs, f = some bufs ∧ 1 ≤ blockLen bufs ∧
      (∀ l ∈ bufs, l.length = blockLen bufs) ∧ ∀ ch ∈ chans, ch < bufs.length := by
  cases f with
  | none => simp [fetchOK] at h
  | some bufs =>
    refine ⟨bufs, rfl, ?_⟩
    simp only [fetchOK, Bool.and_eq_true, decide_eq_true_eq, List.all_eq_true,
      beq_iff_eq] at h
    exact ⟨h.1.1, h.1.2, h.2⟩

theorem chanAt_length {bufs : List (List α)} {ch : Nat}
    (hlen : ∀ l ∈ bufs, l.length = blockLen bufs) (hch : ch < bufs.length) :
    (chanAt bufs ch).length = blockLen bufs := by
  rw [chanAt, List.getD_eq_getElem bufs [] hch]
  exact hlen _ (bufs.getElem_mem hch)

theorem chanConcat_length {chans : List Nat} {ch : Nat} (hch : ch ∈ chans) :
    ∀ (c : List (Fetch α)), (∀ f ∈ c, fetchOK chans f = true) →
      (chanConcat ch c).length = sumBlocks c := by
  intro c
  induction c with
  | nil => intro _; rfl
  | cons f rest ih =>
    intro hg
    obtain ⟨bufs, rfl, _, hlen, hrange⟩ := fetchOK_some (hg f (List.mem_cons_self f rest))
    rw [chanConcat_cons, sumBlocks, List.length_append,
      ih (fun x hx => hg x (List.mem_cons_of_mem _ hx))]
    simp only [Option.getD_some]
    rw [chanAt_length hlen (hrange ch hch)]

theorem channelMap_length (ch : List Bool) :
    ∀ (k i : Nat) (l : List Nat), channelMap ch i k = some l → l.length = k := by
  intro k
  induction k with
  | zero =>
    intro i l h
    simp [channelMap] at h
    simp [← h]
  | succ k ih =>
    intro i l h
    rw [channelMap] at h
    split at h
    · simp at h
    · rename_i c heq
      cases hrec : channelMap ch (c + 1) k with
      | none => rw [hrec] at h; simp at h
      | some l₂ =>
        rw [hrec] at h
        simp at h
        subst h
        simp [ih (c + 1) l₂ hrec]

theorem chans_getD_mem {chans : List Nat} {i : Nat} (h : i < chans.length) :
    chans.getD i 0 ∈ chans := by
  rw [List.getD_eq_getElem chans 0 h]
  exact chans.getElem_mem h

theorem getD_replicate_nil {γ : Type} :
    ∀ (k i : Nat), (List.replicate k ([] : List γ)).getD i [] = [] := by
  intro k
  induction k with
  | zero => intro i; simp
  | succ k ih =>
    intro i
    cases i with
    | zero => simp [List.replicate_succ]
    | succ i => simp only [List.replicate_succ, List.getD_cons_succ]; exact ih i

theorem outs_take_step {α β : Type} [Inhabited α] (cfg : Cfg α β) (ch : Nat)
    (pre : List (Fetch α)) (bufs : List (List α)) (rest : List (Fetch α))
    (si n nw : Nat)
    (hnw : nw = (chanConcat ch pre).length + si)
    (hbound : si + n ≤ (chanAt bufs ch).length) :
    ((chanConcat ch (pre ++ some bufs :: rest)).take (nw + n)).map (transform cfg ch) =
      ((chanConcat ch (pre ++ some bufs :: rest)).take nw).map (transform cfg ch) ++
        copyStream cfg bufs ch si n := by
  have hdecomp : chanConcat ch (pre ++ some bufs :: rest) =
      chanConcat ch pre ++ chanAt bufs ch ++ chanConcat ch rest := by
    rw [chanConcat_append, chanConcat_cons]
    simp only [Option.getD_some]
    rw [List.append_assoc]
  rw [hdecomp, hnw]
  have h1 : (chanConcat ch pre).length + si + n = (chanConcat ch pre).length + si + n := rfl
  rw [take_concat_seg (chanConcat ch pre) (chanAt bufs ch) (chanConcat ch rest) si n hbound]
  rw [List.map_append]
  congr 1
  rw [copyStream, List.map_map]
  rfl

/-! ## The run invariant tying a run state to the consumed fetches -/

/-- Invariant of a run of work calls: either nothing has happened yet,
or the fetch stream splits into fully drained buffers pre, the
currently installed buffer cur, and the fetches still ahead, with the
buffer state mid-drain in cur, the written count equal to the items of
pre plus the read cursor, the emitted tags exactly one per consumed
buffer at the offset of its first sample, and each output stream equal
to the transformed prefix of its channel's fetched concatenation. -/
def RunInv [Inhabited α] (cfg : Cfg α β) (chans : List Nat) (fetches₀ : List (Fetch α))
    (rs : RunState α β) : Prop :=
  rs = initRun fetches₀ cfg.nstreams ∨
  ∃ pre cur,
    fetches₀ = pre ++ some cur :: rs.fetches ∧
    rs.st.samples = cur ∧
    rs.st.thread_stopped = false ∧
    rs.st.empty_buffer = false ∧
    1 ≤ rs.st.sample_index ∧
    rs.st.sample_index + rs.st.items_in_buffer = blockLen cur ∧
    sumBlocks pre + rs.st.sample_index = rs.nwritten ∧
    rs.tags = tagSpec (pre ++ [some cur]) 0 ∧
    rs.outs.length = chans.length ∧
    ∀ i, i < chans.length →
      rs.outs.getD i [] =
        ((chanConcat (chans.getD i 0) fetches₀).take rs.nwritten).map
          (transform cfg (chans.getD i 0))

/-- The conservation equation a run state satisfies: items written plus
items still in the buffer plus items in the fetches ahead account for
the whole fetch stream. -/
theorem runInv_budget {α β : Type} [Inhabited α] {cfg : Cfg α β} {chans : List Nat}
    {fetches₀ : List (Fetch α)} {rs : RunState α β}
    (hinv : RunInv cfg chans fetches₀ rs) :
    rs.nwritten + rs.st.items_in_buffer + sumBlocks rs.fetches = sumBlocks fetches₀ := by
  cases hinv with
  | inl h =>
    subst h
    simp [initRun, initState]
  | inr h =>
    obtain ⟨pre, cur, hdec, _, _, _, _, hsum, hnw, _, _, _⟩ := h
    rw [hdec, sumBlocks_append, sumBlocks]
    simp only [Option.getD_some]
    omega

/-- Installing a well-formed fetched buffer and copying from its start
extends the run invariant: one new tag at the current write offset, the
produced count at least one, each output stream extended by the
transformed first samples of the new buffer. -/
theorem install_copy_inv {α β : Type} [Inhabited α] (cfg : Cfg α β) (chans : List Nat)
    (fetches₀ pre₂ rest₂ : List (Fetch α)) (bufs : List (List α))
    (st1 : SourceState α) (nout nw : Nat)
    (outs : List (List β)) (tags : List (Nat × Nat))
    (hcm : channelMap cfg.channels 0 cfg.nstreams = some chans)
    (hgood : ∀ f ∈ fetches₀, fetchOK chans f = true)
    (hdec : fetches₀ = pre₂ ++ some bufs :: rest₂)
    (hstop1 : st1.thread_stopped = false)
    (hnw : sumBlocks pre₂ = nw)
    (hnout : 1 ≤ nout)
    (houts_len : outs.length = chans.length)
    (houts : ∀ i, i < chans.length → outs.getD i [] =
      ((chanConcat (chans.getD i 0) fetches₀).take nw).map (transform cfg (chans.getD i 0)))
    (htags : tags = tagSpec pre₂ 0) :
    ∃ n streams tag st₂,
      copyPhase cfg (install bufs st1) rest₂ nout nw = .out n streams tag st₂ rest₂ ∧
      1 ≤ n ∧ n ≤ nout ∧
      RunInv cfg chans fetches₀
        { st := st₂, fetches := rest₂, nwritten := nw + n,
          outs := List.zipWith (fun a b => a ++ b) outs streams,
          tags := tags ++ tag.toList } := by
  have hmem : (some bufs : Fetch α) ∈ fetches₀ := by
    rw [hdec]
    exact List.mem_append_right _ (List.mem_cons_self _ _)
  obtain ⟨bufs', heq, hL, hlen, hrange⟩ := fetchOK_some (hgood _ hmem)
  have hb : bufs = bufs' := Option.some.inj heq
  subst hb
  have hn1 : 1 ≤ min (blockLen bufs) nout := by omega
  have hnle : min (blockLen bufs) nout ≤ blockLen bufs := Nat.min_le_left _ _
  have hcopy : copyPhase cfg (install bufs st1) rest₂ nout nw =
      .out (min (blockLen bufs) nout)
        (chans.map (fun ch => copyStream cfg bufs ch 0 (min (blockLen bufs) nout)))
        (some (blockLen bufs, nw))
        { install bufs st1 with
          items_in_buffer := blockLen bufs - min (blockLen bufs) nout
          sample_index := 0 + min (blockLen bufs) nout }
        rest₂ := by
    rw [copyPhase, hcm]
    simp [install]
  refine ⟨min (blockLen bufs) nout, _, _, _, hcopy, hn1, Nat.min_le_right _ _, Or.inr ?_⟩
  refine ⟨pre₂, bufs, hdec, by simp [install], by simp [install, hstop1], by simp [install],
    by simpa using hn1, ?_, ?_, ?_, ?_, ?_⟩
  · simp [install] <;> omega
  · simp <;> omega
  · simp only [Option.toList_some, htags]
    rw [tagSpec_append]
    simp [tagSpec, hnw]
  · simp only [List.length_zipWith, List.length_map, houts_len]
    omega
  · intro i hi
    have hchm : chans.getD i 0 ∈ chans := chans_getD_mem hi
    have hpre_len : (chanConcat (chans.getD i 0) pre₂).length = sumBlocks pre₂ :=
      chanConcat_length hchm pre₂
        (fun f hf => hgood f (by rw [hdec]; exact List.mem_append_left _ hf))
    have hnw_pt : nw = (chanConcat (chans.getD i 0) pre₂).length + 0 := by
      rw [hpre_len]
      omega
    have hbound : 0 + min (blockLen bufs) nout ≤ (chanAt bufs (chans.getD i 0)).length := by
      rw [chanAt_length hlen (hrange _ hchm)]
      omega
    simp only []
    rw [getD_zipWith_append outs _ i (by rw [houts_len, List.length_map]),
      getD_map_fun chans _ i hi, houts i hi, hdec]
    exact (outs_take_step cfg (chans.getD i 0) pre₂ bufs rest₂ 0
      (min (blockLen bufs) nout) nw hnw_pt hbound).symm

/-- Copying from a partially drained installed buffer extends the run
invariant: no tag is emitted, the produced count is at least one, each
output stream is extended by the next transformed samples of the
buffer. -/
theorem copy_only_inv {α β : Type} [Inhabited α] (cfg : Cfg α β) (chans : List Nat)
    (fetches₀ pre fetches : List (Fetch α)) (cur : List (List α))
    (st : SourceState α) (nout nw : Nat)
    (outs : List (List β)) (tags : List (Nat × Nat))
    (hcm : channelMap cfg.channels 0 cfg.nstreams = some chans)
    (hgood : ∀ f ∈ fetches₀, fetchOK chans f = true)
    (hdec : fetches₀ = pre ++ some cur :: fetches)
    (hsamp : st.samples = cur)
    (hstop : st.thread_stopped = false)
    (hemp : st.empty_buffer = false)
    (hsi : 1 ≤ st.sample_index)
    (hsum : st.sample_index + st.items_in_buffer = blockLen cur)
    (hnw : sumBlocks pre + st.sample_index = nw)
    (htags : tags = tagSpec (pre ++ [some cur]) 0)
    (houts_len : outs.length = chans.length)
    (houts : ∀ i, i < chans.length → outs.getD i [] =
      ((chanConcat (chans.getD i 0) fetches₀).take nw).map (transform cfg (chans.getD i 0)))
    (hitems : 1 ≤ st.items_in_buffer) (hnout : 1 ≤ nout) :
    ∃ n streams st₂,
      copyPhase cfg st fetches nout nw = .out n streams none st₂ fetches ∧
      1 ≤ n ∧ n ≤ nout ∧
      RunInv cfg chans fetches₀
        { st := st₂, fetches := fetches, nwritten := nw + n,
          outs := List.zipWith (fun a b => a ++ b) outs streams,
          tags := tags } := by
  have hmem : (some cur : Fetch α) ∈ fetches₀ := by
    rw [hdec]
    exact List.mem_append_right _ (List.mem_cons_self _ _)
  obtain ⟨cur', heq, hL, hlen, hrange⟩ := fetchOK_some (hgood _ hmem)
  have hb : cur = cur' := Option.some.inj heq
  subst hb
  have hn1 : 1 ≤ min st.items_in_buffer nout := by omega
  have hnle : min st.items_in_buffer nout ≤ st.items_in_buffer := Nat.min_le_left _ _
  have hs0 : ¬ (st.sample_index = 0) := by omega
  have hcopy : copyPhase cfg st fetches nout nw =
      .out (min st.items_in_buffer nout)
        (chans.map (fun ch => copyStream cfg cur ch st.sample_index (min st.items_in_buffer nout)))
        none
        { st with
          items_in_buffer := st.items_in_buffer - min st.items_in_buffer nout
          sample_index := st.sample_index + min st.items_in_buffer nout }
        fetches := by
    rw [copyPhase, hcm]
    simp [hs0, hsamp]
  refine ⟨min st.items_in_buffer nout, _, _, hcopy, hn1, Nat.min_le_right _ _, Or.inr ?_⟩
  refine ⟨pre, cur, hdec, by simpa using hsamp, by simpa using hstop, by simpa using hemp,
    ?_, ?_, ?_, by simpa using htags, ?_, ?_⟩
  · simp <;> omega
  · simp <;> omega
  · simp <;> omega
  · simp only [List.length_zipWith, List.length_map, houts_len]
    omega
  · intro i hi
    have hchm : chans.getD i 0 ∈ chans := chans_getD_mem hi
    have hpre_len : (chanConcat (chans.getD i 0) pre).length = sumBlocks pre :=
      chanConcat_length hchm pre
        (fun f hf => hgood f (by rw [hdec]; exact List.mem_append_left _ hf))
    have hnw_pt : nw = (chanConcat (chans.getD i 0) pre).length + st.sample_index := by
      rw [hpre_len]
      omega
    have hbound : st.sample_index + min st.items_in_buffer nout ≤
        (chanAt cur (chans.getD i 0)).length := by
      rw [chanAt_length hlen (hrange _ hchm)]
      omega
    simp only []
    rw [getD_zipWith_append outs _ i (by rw [houts_len, List.length_map]),
      getD_map_fun chans _ i hi, houts i hi, hdec]
    exact (outs_take_step cfg (chans.getD i 0) pre cur fetches st.sample_index
      (min st.items_in_buffer nout) nw hnw_pt hbound).symm

theorem work_install {α β : Type} [Inhabited α] (cfg : Cfg α β) (st : SourceState α)
    (bufs : List (List α)) (rest₂ : List (Fetch α)) (nout nw : Nat)
    (hstop : st.thread_stopped = false) (hitems : st.items_in_buffer = 0) :
    work cfg st (some bufs :: rest₂) nout nw =
      copyPhase cfg (install bufs { st with empty_buffer := true }) rest₂ nout nw := by
  rw [work]
  simp [hstop, hitems]

theorem work_copy_direct {α β : Type} [Inhabited α] (cfg : Cfg α β) (st : SourceState α)
    (fetches : List (Fetch α)) (nout nw : Nat)
    (hstop : st.thread_stopped = false) (hitems : ¬ st.items_in_buffer = 0)
    (hemp : st.empty_buffer = false) :
    work cfg st fetches nout nw = copyPhase cfg st fetches nout nw := by
  rw [work]
  simp [hstop, hitems, hemp]

/-- One successful work call preserves the run invariant, produces
between one and nout items, and consumes at most the head fetch. -/
theorem runStep_inv {α β : Type} [Inhabited α] (cfg : Cfg α β) (chans : List Nat)
    (fetches₀ : List (Fetch α))
    (hcm : channelMap cfg.channels 0 cfg.nstreams = some chans)
    (hgood : ∀ f ∈ fetches₀, fetchOK chans f = true)
    (rs : RunState α β) (nout : Nat) (hnout : 1 ≤ nout)
    (hinv : RunInv cfg chans fetches₀ rs)
    (havail : rs.st.items_in_buffer = 0 → rs.fetches ≠ []) :
    ∃ rs₂, runStep cfg rs nout = some rs₂ ∧ RunInv cfg chans fetches₀ rs₂ ∧
      rs₂.nwritten ≤ rs.nwritten + nout := by
  have hlen_ch : chans.length = cfg.nstreams :=
    channelMap_length cfg.channels cfg.nstreams 0 chans hcm
  cases hinv with
  | inl h =>
    subst h
    have hne : fetches₀ ≠ [] := havail rfl
    obtain ⟨f, rest₂, hf0⟩ : ∃ f rest₂, fetches₀ = f :: rest₂ := by
      cases fetches₀ with
      | nil => exact absurd rfl hne
      | cons a b => exact ⟨a, b, rfl⟩
    have hfmem : f ∈ fetches₀ := by
      rw [hf0]
      exact List.mem_cons_self _ _
    obtain ⟨bufs, hfeq, hL, hlen, hrange⟩ := fetchOK_some (hgood f hfmem)
    subst hfeq
    obtain ⟨n, streams, tag, st₂, hcopy, hn1, hnle, hinv₂⟩ :=
      install_copy_inv cfg chans fetches₀ [] rest₂ bufs
        { (initState : SourceState α) with empty_buffer := true } nout 0
        (List.replicate cfg.nstreams []) [] hcm hgood (by rw [hf0]; rfl) rfl rfl hnout
        (by rw [List.length_replicate, hlen_ch])
        (fun i hi => by rw [getD_replicate_nil]; simp) rfl
    refine ⟨RunState.mk st₂ rest₂ (0 + n)
      (List.zipWith (fun a b => a ++ b) (List.replicate cfg.nstreams []) streams)
      ([] ++ tag.toList), ?_, hinv₂, ?_⟩
    · rw [runStep]
      have hw : work cfg (initRun fetches₀ cfg.nstreams : RunState α β).st
          (initRun fetches₀ cfg.nstreams : RunState α β).fetches nout
          (initRun fetches₀ cfg.nstreams : RunState α β).nwritten =
          .out n streams tag st₂ rest₂ := by
        show work cfg initState fetches₀ nout 0 = _
        rw [hf0, work_install cfg initState bufs rest₂ nout 0 rfl rfl]
        exact hcopy
      rw [hw]
      rfl
    · simp [initRun]
      omega
  | inr h =>
    obtain ⟨pre, cur, hdec, hsamp, hstop, hemp, hsi, hsum, hnw, htags, houts_len, houts⟩ := h
    by_cases hitems : rs.st.items_in_buffer = 0
    · have hne : rs.fetches ≠ [] := havail hitems
      cases hf : rs.fetches with
      | nil => exact absurd hf hne
      | cons f rest₂ =>
        have hfmem : f ∈ fetches₀ := by
          rw [hdec, hf]
          exact List.mem_append_right _ (List.mem_cons_of_mem _ (List.mem_cons_self _ _))
        obtain ⟨bufs, hfeq, hL2, hlen2, hrange2⟩ := fetchOK_some (hgood f hfmem)
        subst hfeq
        have hdec₂ : fetches₀ = (pre ++ [some cur]) ++ some bufs :: rest₂ := by
          rw [hdec, hf]
          simp
        have hnw₂ : sumBlocks (pre ++ [some cur]) = rs.nwritten := by
          rw [sumBlocks_append]
          simp only [sumBlocks, Option.getD_some]
          omega
        obtain ⟨n, streams, tag, st₂, hcopy, hn1, hnle, hinv₂⟩ :=
          install_copy_inv cfg chans fetches₀ (pre ++ [some cur]) rest₂ bufs
            { rs.st with empty_buffer := true } nout rs.nwritten
            rs.outs rs.tags hcm hgood hdec₂ (by simpa using hstop) hnw₂ hnout
            houts_len houts htags
        refine ⟨RunState.mk st₂ rest₂ (rs.nwritten + n)
          (List.zipWith (fun a b => a ++ b) rs.outs streams)
          (rs.tags ++ tag.toList), ?_, hinv₂, ?_⟩
        · rw [runStep]
          have hw : work cfg rs.st rs.fetches nout rs.nwritten =
              .out n streams tag st₂ rest₂ := by
            rw [hf, work_install cfg rs.st bufs rest₂ nout rs.nwritten hstop hitems]
            exact hcopy
          rw [hw]
        · simp
          omega
    · obtain ⟨n, streams, st₂, hcopy, hn1, hnle, hinv₂⟩ :=
        copy_only_inv cfg chans fetches₀ pre rs.fetches cur rs.st nout rs.nwritten
          rs.outs rs.tags hcm hgood hdec hsamp hstop hemp hsi hsum hnw htags
          houts_len houts (by omega) hnout
      have hrec : RunState.mk st₂ rs.fetches (rs.nwritten + n)
          (List.zipWith (fun a b => a ++ b) rs.outs streams)
          (rs.tags ++ (none : Option (Nat × Nat)).toList) =
          RunState.mk st₂ rs.fetches (rs.nwritten + n)
            (List.zipWith (fun a b => a ++ b) rs.outs streams) rs.tags := by
        simp
      refine ⟨RunState.mk st₂ rs.fetches (rs.nwritten + n)
        (List.zipWith (fun a b => a ++ b) rs.outs streams)
        (rs.tags ++ (none : Option (Nat × Nat)).toList), ?_, hrec.symm ▸ hinv₂, ?_⟩
      · rw [runStep]
        have hw : work cfg rs.st rs.fetches nout rs.nwritten =
            .out n streams none st₂ rs.fetches :=
          (work_copy_direct cfg rs.st rs.fetches nout rs.nwritten hstop hitems hemp).trans hcopy
        rw [hw]
      · simp
        omega

/-- A whole run of work calls with positive requests within the fetched
budget completes and preserves the run invariant. -/
theorem runCalls_inv {α β : Type} [Inhabited α] (cfg : Cfg α β) (chans : List Nat)
    (fetches₀ : List (Fetch α))
    (hcm : channelMap cfg.channels 0 cfg.nstreams = some chans)
    (hgood : ∀ f ∈ fetches₀, fetchOK chans f = true) :
    ∀ (reqs : List Nat) (rs : RunState α β), RunInv cfg chans fetches₀ rs →
      (∀ r ∈ reqs, 1 ≤ r) → rs.nwritten + reqs.sum ≤ sumBlocks fetches₀ →
      ∃ rs₂, runCalls cfg reqs rs = some rs₂ ∧ RunInv cfg chans fetches₀ rs₂ := by
  intro reqs
  induction reqs with
  | nil =>
    intro rs hinv _ _
    exact ⟨rs, rfl, hinv⟩
  | cons r rest ih =>
    intro rs hinv hpos hbound
    have hr : 1 ≤ r := hpos r (List.mem_cons_self _ _)
    have hsum : (r :: rest).sum = r + rest.sum := List.sum_cons
    rw [hsum] at hbound
    have havail : rs.st.items_in_buffer = 0 → rs.fetches ≠ [] := by
      intro hz hfe
      have hb := runInv_budget hinv
      rw [hz, hfe] at hb
      simp only [sumBlocks] at hb
      omega
    obtain ⟨rs₂, hstep, hinv₂, hle⟩ :=
      runStep_inv cfg chans fetches₀ hcm hgood rs r hr hinv havail
    have hbound₂ : rs₂.nwritten + rest.sum ≤ sumBlocks fetches₀ := by omega
    obtain ⟨rs₃, hrun, hinv₃⟩ :=
      ih rs₂ hinv₂ (fun x hx => hpos x (List.mem_cons_of_mem _ hx)) hbound₂
    refine ⟨rs₃, ?_, hinv₃⟩
    rw [runCalls, hstep]
    exact hrun

/-! ## Claims about the produced sample stream and its tags -/

/-- C1 counterexample: a single work call requesting one item from a
fetch of two items satisfies the claim's precondition (total requested
at most total fetched), yet the produced concatenation is one sample,
while the transformed concatenation of all successful fetches is two
samples, so the two are not equal. -/
theorem c1_counterexample :
    List.sum [1] ≤ sumBlocks [some [[(10 : Int), 20], [0, 0]]] ∧
    Option.map (fun rs => rs.outs.getD 0 [])
      (runCalls idCfg1 [1] (initRun [some [[(10 : Int), 20], [0, 0]]] 1)) =
      some [(10 : Int)] ∧
    (chanConcat 0 [some [[(10 : Int), 20], [0, 0]]]).map (transform idCfg1 0) =
      [(10 : Int), 20] ∧
    [(10 : Int)] ≠ [(10 : Int), 20] := by
  decide

/-- C1 (amended): for every sequence of work calls with positive
requested counts whose total requested count is at most the total
fetched count, over well-formed successful fetches, the run completes
and, per output stream, the concatenation of the produced samples
equals the prefix, of length the total produced count, of the
concatenation of the samples of all successful fetches in fetch order
for that stream's active channel, transformed (engineering-unit
conversion when streaming voltage values, raw narrowing cast
otherwise). -/
theorem c1_produced_prefix_of_fetched {α β : Type} [Inhabited α] (cfg : Cfg α β)
    (chans : List Nat) (fetches₀ : List (Fetch α)) (reqs : List Nat)
    (hcm : channelMap cfg.channels 0 cfg.nstreams = some chans)
    (hgood : ∀ f ∈ fetches₀, fetchOK chans f = true)
    (hpos : ∀ r ∈ reqs, 1 ≤ r)
    (htotal : reqs.sum ≤ sumBlocks fetches₀) :
    ∃ rs₂, runCalls cfg reqs (initRun fetches₀ cfg.nstreams) = some rs₂ ∧
      ∀ i, i < cfg.nstreams →
        rs₂.outs.getD i [] =
          ((chanConcat (chans.getD i 0) fetches₀).take rs₂.nwritten).map
            (transform cfg (chans.getD i 0)) := by
  have hinv0 : RunInv cfg chans fetches₀ (initRun fetches₀ cfg.nstreams : RunState α β) :=
    Or.inl rfl
  obtain ⟨rs₂, hrun, hinv₂⟩ :=
    runCalls_inv cfg chans fetches₀ hcm hgood reqs (initRun fetches₀ cfg.nstreams) hinv0 hpos
      (by simpa [initRun] using htotal)
  have hlen_ch : chans.length = cfg.nstreams :=
    channelMap_length cfg.channels cfg.nstreams 0 chans hcm
  refine ⟨rs₂, hrun, ?_⟩
  intro i hi
  cases hinv₂ with
  | inl h =>
    rw [h]
    simp [initRun, getD_replicate_nil]
  | inr h =>
    obtain ⟨pre, cur, _, _, _, _, _, _, _, _, _, houts⟩ := h
    exact houts i (by omega)

/-- Witness for C1 (amended): two fetches of two items each, four calls
of one item each. -/
theorem c1_witness :
    (channelMap idCfg1.channels 0 idCfg1.nstreams = some [0] ∧
      (∀ f ∈ [some [[(1 : Int), 2], [5, 6]], some [[(3 : Int), 4], [7, 8]]],
        fetchOK [0] f = true) ∧
      (∀ r ∈ [1, 1, 1, 1], 1 ≤ r) ∧
      List.sum [1, 1, 1, 1] ≤
        sumBlocks [some [[(1 : Int), 2], [5, 6]], some [[(3 : Int), 4], [7, 8]]]) ∧
    (∃ rs₂, runCalls idCfg1 [1, 1, 1, 1]
        (initRun [some [[(1 : Int), 2], [5, 6]], some [[(3 : Int), 4], [7, 8]]]
          idCfg1.nstreams) = some rs₂ ∧
      ∀ i, i < idCfg1.nstreams →
        rs₂.outs.getD i [] =
          ((chanConcat (List.getD [0] i 0)
            [some [[(1 : Int), 2], [5, 6]], some [[(3 : Int), 4], [7, 8]]]).take
              rs₂.nwritten).map (transform idCfg1 (List.getD [0] i 0))) :=
  ⟨⟨by decide, by decide, by decide, by decide⟩,
    c1_produced_prefix_of_fetched idCfg1 [0]
      [some [[(1 : Int), 2], [5, 6]], some [[(3 : Int), 4], [7, 8]]] [1, 1, 1, 1]
      (by decide) (by decide) (by decide) (by decide)⟩

/-- C5: over a run of work calls with positive requests within the
fetched budget, the emitted buffer_start tags are exactly one per
consumed fetched buffer, in fetch order, each carrying that buffer's
total fetched length, at the write offset of that buffer's first
sample; and a work call copying at a nonzero read cursor attaches no
tag. -/
theorem c5_buffer_start_tags {α β : Type} [Inhabited α] (cfg : Cfg α β)
    (chans : List Nat) (fetches₀ : List (Fetch α)) (reqs : List Nat)
    (hcm : channelMap cfg.channels 0 cfg.nstreams = some chans)
    (hgood : ∀ f ∈ fetches₀, fetchOK chans f = true)
    (hpos : ∀ r ∈ reqs, 1 ≤ r)
    (htotal : reqs.sum ≤ sumBlocks fetches₀) :
    (∃ rs₂, runCalls cfg reqs (initRun fetches₀ cfg.nstreams) = some rs₂ ∧
      ∃ consumed, fetches₀ = consumed ++ rs₂.fetches ∧ rs₂.tags = tagSpec consumed 0) ∧
    (∀ (st : SourceState α) (fetches : List (Fetch α)) (nout nw : Nat),
      st.thread_stopped = false → st.empty_buffer = false →
      ¬ st.items_in_buffer = 0 → ¬ st.sample_index = 0 →
      ∃ n streams st₂, work cfg st fetches nout nw = .out n streams none st₂ fetches) := by
  constructor
  · have hinv0 : RunInv cfg chans fetches₀ (initRun fetches₀ cfg.nstreams : RunState α β) :=
      Or.inl rfl
    obtain ⟨rs₂, hrun, hinv₂⟩ :=
      runCalls_inv cfg chans fetches₀ hcm hgood reqs (initRun fetches₀ cfg.nstreams) hinv0 hpos
        (by simpa [initRun] using htotal)
    refine ⟨rs₂, hrun, ?_⟩
    cases hinv₂ with
    | inl h =>
      refine ⟨[], ?_, ?_⟩
      · rw [h]
        rfl
      · rw [h]
        rfl
    | inr h =>
      obtain ⟨pre, cur, hdec, _, _, _, _, _, _, htags, _, _⟩ := h
      refine ⟨pre ++ [some cur], ?_, htags⟩
      rw [hdec]
      simp
  · intro st fetches nout nw hstop hemp hitems hs0
    rw [work_copy_direct cfg st fetches nout nw hstop hitems hemp, copyPhase, hcm]
    simp only [hs0, reduceIte, if_false]
    exact ⟨_, _, _, rfl⟩

/-- Witness for C5: the two-buffer run emits exactly the two tags, one
per buffer, carrying length two, at offsets zero and two. -/
theorem c5_witness :
    (channelMap idCfg1.channels 0 idCfg1.nstreams = some [0] ∧
      (∀ f ∈ [some [[(1 : Int), 2], [5, 6]], some [[(3 : Int), 4], [7, 8]]],
        fetchOK [0] f = true) ∧
      (∀ r ∈ [1, 1, 1, 1], 1 ≤ r) ∧
      List.sum [1, 1, 1, 1] ≤
        sumBlocks [some [[(1 : Int), 2], [5, 6]], some [[(3 : Int), 4], [7, 8]]]) ∧
    (∃ rs₂, runCalls idCfg1 [1, 1, 1, 1]
        (initRun [some [[(1 : Int), 2], [5, 6]], some [[(3 : Int), 4], [7, 8]]]
          idCfg1.nstreams) = some rs₂ ∧
      ∃ consumed,
        [some [[(1 : Int), 2], [5, 6]], some [[(3 : Int), 4], [7, 8]]] =
          consumed ++ rs₂.fetches ∧
        rs₂.tags = tagSpec consumed 0) :=
  ⟨⟨by decide, by decide, by decide, by decide⟩,
    (c5_buffer_start_tags idCfg1 [0]
      [some [[(1 : Int), 2], [5, 6]], some [[(3 : Int), 4], [7, 8]]] [1, 1, 1, 1]
      (by decide) (by decide) (by decide) (by decide)).1⟩

end GrM2k
